import Mathlib

/-!
Verification development for the `pg` migration engine.

The Go sources embedded here (shallowly) are:
  * `migration.go` (`migrationHistory`: `Migrate`, `migrateNext`, `migrateSingle`,
    `addAppliedMigration`, `calculateInstalledRank`, `lock`, `getAppliedMigrations`,
    `sortCache`),
  * `migrate.go` (`Database.AddMigration`),
  * the migration-definition file (`Migration.ExecSql`, `Migration.ExecFn`, checksum),
  * `Database.Transaction` (commit on success, rollback on error).

Modelling conventions:
  * semantic version strings are modelled by the inductive `MVersion`
    (`R` is the repeatable marker; `sem a b c` a `major.minor.patch` version).
    `golang.org/x/mod/semver.Compare` becomes `semverCompare`; the empty string
    (the initial `lastAppliedVersion`) is modelled by `none : Option MVersion`
    (an invalid version compares equal to every invalid one and below valid ones).
  * SQL execution is environmental: in the orchestrator model each scheduled
    command carries its run outcome (`none` = success, `some e` = the error the
    database would return), so quantifying over migration lists quantifies over
    all environments.
  * the history table is a list of rows; the `SELECT ... WHERE installed_rank > $1
    ORDER BY installed_rank` query becomes filter-then-stable-sort;
    `sort.SliceStable` becomes the stable insertion sort `ssort`.
  * the md5 hex digest used by the checksum is abstracted as a `hash` parameter
    threaded through the checksum model; the rolling structure is exactly the
    source's `hash(checksum + hash(content))`.
-/

namespace Pg

/-- Version of a migration: the repeatable marker `R` or a semantic version
`major.minor.patch` (source: version strings validated by `semver.IsValid`). -/
inductive MVersion where
  | R : MVersion
  | sem (major minor patch : Nat) : MVersion
deriving DecidableEq, Repr

/-- Model of `semver.Compare ("v" ++ a) ("v" ++ b)` on the version domain of the
program: `R` is not a valid semantic version, and x/mod/semver makes every
invalid version compare equal to invalid ones and below valid ones. -/
def semverCompare : MVersion → MVersion → Int
  | .R, .R => 0
  | .R, .sem _ _ _ => -1
  | .sem _ _ _, .R => 1
  | .sem a b c, .sem d e f =>
    if a < d then -1 else if d < a then 1
    else if b < e then -1 else if e < b then 1
    else if c < f then -1 else if f < c then 1 else 0

/-- Model of `semver.Compare ("v" ++ v) ("v" ++ last)` where `last` may be the
empty string (`none`), the initial value of `lastAppliedVersion` in
`migrateNext`; the empty string is invalid, so a valid `v` is greater and the
invalid `R` compares equal. -/
def compareVersionOpt (v : MVersion) : Option MVersion → Int
  | none => match v with
    | .R => 0
    | .sem _ _ _ => 1
  | some w => semverCompare v w

/-- `MigrationState` (source: `MigrationPending`, `MigrationSuccess`, `MigrationFailed`). -/
inductive MigrationState where
  | pending | success | failed
deriving DecidableEq, Repr

/-- `MigrationInfo` (source struct): version, state, description, installed rank,
checksum.  Timestamps are not modelled. -/
structure MigrationInfo where
  version : MVersion
  state : MigrationState
  description : String
  installedRank : Int
  checksum : String
deriving DecidableEq, Repr

/-- One row of the schema-history table (`installed_rank, version, description,
checksum, success`; `installed_on` and `execution_time` are not read back by the
engine and are not modelled). -/
structure LedgerRow where
  installedRank : Int
  version : MVersion
  description : String
  checksum : String
  success : Bool
deriving DecidableEq, Repr

/-- `Migration` as the orchestrator sees it: the `Repeat` flag, the mutable
`Info`, and the scheduled commands.  A command is represented by its run
outcome (`none` = the SQL/callback succeeds, `some e` = it fails with error
`e`), since SQL execution itself is environmental. -/
structure OMigration where
  Repeat : Bool
  Info : MigrationInfo
  commands : List (Option String)
deriving DecidableEq, Repr

/-- Stable insert used to model Go's `sort.SliceStable`: `a` is placed before
the first element `b` (taken from the already-sorted later elements) with
`¬ less b a`, so an earlier element never jumps over an equal later one. -/
def sinsert (less : α → α → Bool) (a : α) : List α → List α
  | [] => [a]
  | b :: t => if less b a then b :: sinsert less a t else a :: b :: t

/-- Stable sort modelling `sort.SliceStable`. -/
def ssort (less : α → α → Bool) : List α → List α
  | [] => []
  | a :: t => sinsert less a (ssort less t)

/-- The comparison closure passed to `sort.SliceStable` in
`migrationHistory.Migrate` (source lines 176-186). -/
def migLess (a b : OMigration) : Bool :=
  if a.Repeat = b.Repeat then semverCompare a.Info.version b.Info.version < 0
  else if a.Repeat then false else true

/-- The sort performed at the start of `migrationHistory.Migrate`. -/
def sortMigrations (ms : List OMigration) : List OMigration :=
  ssort migLess ms

/-- The comparison closure of `migrationHistory.sortCache` (order by
`installedRank`). -/
def rankLess (a b : LedgerRow) : Bool :=
  a.installedRank < b.installedRank

/-- `migrationHistory.sortCache`. -/
def sortCache (rows : List LedgerRow) : List LedgerRow :=
  ssort rankLess rows

end Pg

namespace Pg

/-! ## Checksum model (`Migration.ExecSql` / `Migration.ExecFn`)

The md5 hex digest `hash` is kept as a parameter; the rolling update is the
source's `m.Info.Checksum = hash(m.Info.Checksum + hash(content))`, where the
hashed content is the SQL text for `ExecSql` and the `name` argument for
`ExecFn`. -/

/-- A scheduled command as stored by the builder: `migrationCommandSql` keeps
the SQL text and its bound arguments; `migrationCommandCallback` keeps the
caller position, an identifier standing for the callback function value, and
the arguments — note the source does not store the `name` passed to `ExecFn`
in the command, it only hashes it. -/
inductive BCommand where
  | sql (sqlText : String) (args : List String)
  | fn (caller : String) (callbackId : Nat) (args : List String)
deriving DecidableEq, Repr

/-- Builder state of one migration: scheduled commands plus the rolling
checksum (initially `""`, as set by `AddMigration`). -/
structure BMigration where
  commands : List BCommand
  checksum : String
deriving DecidableEq, Repr

/-- `Migration.ExecSql` (source lines 377-384): append the SQL command and
update `checksum := hash (checksum ++ hash sqlText)`. -/
def ExecSql (hash : String → String) (m : BMigration) (sqlText : String)
    (args : List String) : BMigration :=
  { commands := m.commands ++ [.sql sqlText args]
    checksum := hash (m.checksum ++ hash sqlText) }

/-- `Migration.ExecFn` (source lines 387-395): append the callback command and
update `checksum := hash (checksum ++ hash name)`; the name is hashed but not
stored. -/
def ExecFn (hash : String → String) (m : BMigration) (name caller : String)
    (callbackId : Nat) (args : List String) : BMigration :=
  { commands := m.commands ++ [.fn caller callbackId args]
    checksum := hash (m.checksum ++ hash name) }

/-- One registration-time builder step (`prepare` calls either `ExecSql` or
`ExecFn`). -/
inductive BuildStep where
  | sql (sqlText : String) (args : List String)
  | fn (name caller : String) (callbackId : Nat) (args : List String)
deriving DecidableEq, Repr

/-- Apply one builder step. -/
def applyStep (hash : String → String) (m : BMigration) : BuildStep → BMigration
  | .sql s args => ExecSql hash m s args
  | .fn name caller cb args => ExecFn hash m name caller cb args

/-- Run a whole builder from the initial state (`commands = []`,
`checksum = ""`, as created by `AddMigration`). -/
def buildMigration (hash : String → String) (steps : List BuildStep) : BMigration :=
  steps.foldl (applyStep hash) ⟨[], ""⟩

/-- The part of a builder step that reaches the checksum: the kind tag together
with the SQL text (for `ExecSql`) or the command name (for `ExecFn`).  Bound
arguments, the caller position and the callback value do not appear. -/
def stepHashKey : BuildStep → Bool × String
  | .sql s _ => (true, s)
  | .fn name _ _ _ => (false, name)

/-! ## History store (`migrationHistory`)

`db`/`dbSchema`/`dbLock` collapse to: the durable table (a list of rows), the
in-memory cache `h.cache`, and whether the dedicated lock connection is held
(`dbLock ≠ nil`).  Reads and writes of the history table are modelled as
infallible; the connection/transaction mechanics of `lock` have their own
model further down. -/

/-- State of one `migrationHistory` instance: the durable history table, the
monotonic row cache, and whether `dbLock` is currently set. -/
structure HistoryState where
  table : List LedgerRow
  cache : List LedgerRow
  locked : Bool
deriving DecidableEq, Repr

/-- The `maxCachedInstalledRank` computed at the start of
`getAppliedMigrations`: `-1` when the cache is empty, otherwise the rank of
the last row of the sorted cache. -/
def maxCachedRank (cache : List LedgerRow) : Int :=
  match (sortCache cache).getLast? with
  | none => -1
  | some r => r.installedRank

/-- `migrationHistory.getAppliedMigrations`: sort the cache, read only rows
with `installed_rank` above the cached maximum (the SQL also orders by rank),
append them to the cache and sort it again; returns the cache contents and the
updated state. -/
def getAppliedMigrations (h : HistoryState) : List LedgerRow × HistoryState :=
  let newRows :=
    sortCache (h.table.filter (fun r => maxCachedRank h.cache < r.installedRank))
  let cache1 := sortCache (sortCache h.cache ++ newRows)
  (cache1, { h with cache := cache1 })

/-- `migrationHistory.calculateInstalledRank`: `1` if no applied migrations,
otherwise the rank of the last (highest-ranked) applied migration plus one. -/
def calculateInstalledRank (h : HistoryState) : Int × HistoryState :=
  let (applied, h1) := getAppliedMigrations h
  match applied.getLast? with
  | none => (1, h1)
  | some r => (r.installedRank + 1, h1)

/-- Errors returned by the engine, one constructor per distinct
`errors.New(...)` site relevant to the claims. -/
inductive MErr where
  | outOfOrder (lastApplied : Option MVersion) (version : MVersion)
  | checksumMismatch (version : MVersion) (applied resolved : String)
  | descriptionMismatch (version : MVersion) (applied resolved : String)
  | notResolvedLocally (version : MVersion)
  | applyFailed (cause : String)
  | notLocked
  | alreadyLockedErr
deriving DecidableEq, Repr

/-- `migrationHistory.addAppliedMigration`: requires the lock to be held,
deletes any previous row for the version, computes the next rank and inserts
the new row; returns the new state and the assigned rank (which the source
stores into `info.InstalledRank`). -/
def addAppliedMigration (h : HistoryState) (info : MigrationInfo)
    (success : Bool) : Except MErr (HistoryState × Int) :=
  if h.locked = false then .error .notLocked
  else
    let h1 : HistoryState :=
      { h with table := h.table.filter (fun r => ¬(r.version = info.version)) }
    let (rank, h2) := calculateInstalledRank h1
    let row : LedgerRow :=
      { installedRank := rank, version := info.version
        description := info.description, checksum := info.checksum
        success := success }
    .ok ({ h2 with table := h2.table ++ [row] }, rank)

/-! ## Reconciliation (`migrateNext`) -/

/-- The two `map[string]*MigrationInfo` lookups of `migrateNext`
(`notResolved` and `appliedByVersion`), as association lists; `upsertA`
overwrites an existing key like a Go map assignment. -/
abbrev AList := List (MVersion × Option LedgerRow)

/-- Go map assignment `m[k] = v`. -/
def upsertA (k : MVersion) (v : Option LedgerRow) : AList → AList
  | [] => [(k, v)]
  | (k1, v1) :: rest =>
    if k1 = k then (k, v) :: rest else (k1, v1) :: upsertA k v rest

/-- Go map read `m[k]` where the zero value is `nil`: absent keys and keys
explicitly set to `nil` both read back as `none`. -/
def lookupRow (k : MVersion) : AList → Option LedgerRow
  | [] => none
  | (k1, v1) :: rest => if k1 = k then v1 else lookupRow k rest

/-- First loop of `migrateNext` (source lines 237-246): over the applied rows
in rank order, skipping version `R`, fill `notResolved` and
`appliedByVersion` and track the maximum successfully-applied version. -/
def buildAppliedMaps (applied : List LedgerRow) :
    AList × AList × Option MVersion :=
  applied.foldl
    (fun acc row =>
      let (nr, ab, la) := acc
      if row.version = .R then acc
      else
        let nr1 := upsertA row.version (some row) nr
        let ab1 := upsertA row.version (some row) ab
        let la1 :=
          if row.success = true ∧ 0 < compareVersionOpt row.version la then
            some row.version
          else la
        (nr1, ab1, la1))
    ([], [], none)

/-- Second loop of `migrateNext` (source lines 257-308): walk the sorted local
migrations, mark each version as matched in `notResolved`, re-mark
non-repeatable states as pending, and fail on out-of-order versions, checksum
mismatches or description mismatches; repeatable (`R`) definitions are left
with whatever state they already carry.  Returns the final `notResolved`, the
(partially, on error) updated migration list and the error, if any. -/
def reconcileLoop (la : Option MVersion) (ab : AList) :
    List OMigration → AList → AList × List OMigration × Option MErr
  | [], nr => (nr, [], none)
  | m :: rest, nr =>
    let version := m.Info.version
    let nr1 := upsertA version none nr
    let info1 := if version = .R then m.Info else { m.Info with state := .pending }
    let m1 : OMigration := { m with Info := info1 }
    match lookupRow version ab with
    | none =>
      if ¬(version = .R) ∧ compareVersionOpt version la ≤ 0 then
        (nr1, m1 :: rest, some (.outOfOrder la version))
      else
        let (nr2, rest1, e) := reconcileLoop la ab rest nr1
        (nr2, m1 :: rest1, e)
    | some row =>
      if row.success = true then
        if ¬(row.checksum = info1.checksum) then
          (nr1, m1 :: rest, some (.checksumMismatch version row.checksum info1.checksum))
        else if ¬(row.description = info1.description) then
          (nr1, m1 :: rest, some (.descriptionMismatch version row.description info1.description))
        else
          let m2 : OMigration := { m1 with Info := { info1 with state := .success } }
          let (nr2, rest1, e) := reconcileLoop la ab rest nr1
          (nr2, m2 :: rest1, e)
      else
        let (nr2, rest1, e) := reconcileLoop la ab rest nr1
        (nr2, m1 :: rest1, e)

/-- The check after the second loop (source lines 311-315): any applied
version never matched by a local definition is an error.  Go iterates the map
in unspecified order; the model reports the first offender in association-list
order. -/
def findUnresolved : AList → Option MVersion
  | [] => none
  | (_, some row) :: _ => some row.version
  | (_, none) :: rest => findUnresolved rest

/-- `appliedByVersion` as `migrateNext` computes it from a history state. -/
def reconAB (h : HistoryState) : AList :=
  (buildAppliedMaps (getAppliedMigrations h).1).2.1

/-- `lastAppliedVersion` as `migrateNext` computes it from a history state. -/
def reconLA (h : HistoryState) : Option MVersion :=
  (buildAppliedMaps (getAppliedMigrations h).1).2.2

/-- The initial `notResolved` map as `migrateNext` computes it. -/
def reconNR0 (h : HistoryState) : AList :=
  (buildAppliedMaps (getAppliedMigrations h).1).1

/-- Run the scheduled commands of one migration inside the transaction of
`migrateSingle`: the first failing command aborts (and the surrounding
transaction rolls back, so the model leaves no partial effect). -/
def runCommands : List (Option String) → Option String
  | [] => none
  | none :: rest => runCommands rest
  | some e :: _ => some e

/-- `migrationHistory.migrateSingle`: run the commands in a transaction; on
success mark the local definition successful and record it in the ledger
(which also stores the assigned rank into the info). -/
def migrateSingle (h : HistoryState) (m : OMigration) :
    HistoryState × OMigration × Option MErr :=
  match runCommands m.commands with
  | some cause => (h, m, some (.applyFailed cause))
  | none =>
    let info1 := { m.Info with state := MigrationState.success }
    match addAppliedMigration h info1 true with
    | .error e => (h, { m with Info := info1 }, some e)
    | .ok (h1, rank) =>
      (h1, { m with Info := { info1 with installedRank := rank } }, none)

/-- On a failed apply, `migrateNext` records the failure
(`addAppliedMigration(..., false)`); an error from the recording itself is
only logged. -/
def recordFailure (h : HistoryState) (m : OMigration) :
    HistoryState × OMigration :=
  match addAppliedMigration h m.Info false with
  | .error _ => (h, m)
  | .ok (h1, rank) => (h1, { m with Info := { m.Info with installedRank := rank } })

/-- Result of one `migrateNext` pass: the count of applied migrations (0 or
1), the history state, the (state-mutated) local migration list, the error if
any, and the versions whose apply was attempted in this pass. -/
structure MNRes where
  count : Nat
  hist : HistoryState
  migs : List OMigration
  err : Option MErr
  attempts : List MVersion
deriving DecidableEq, Repr

/-- `migrationHistory.migrateNext` (source lines 226-345): load the applied
rows, reconcile them against the local definitions, and apply the first
pending migration, recording its outcome. -/
def migrateNext (h : HistoryState) (migrations : List OMigration) : MNRes :=
  let (applied, h1) := getAppliedMigrations h
  let (nr0, ab, la) := buildAppliedMaps applied
  let (nr1, migs1, e1) := reconcileLoop la ab migrations nr0
  match e1 with
  | some e => ⟨0, h1, migs1, some e, []⟩
  | none =>
    match findUnresolved nr1 with
    | some v => ⟨0, h1, migs1, some (.notResolvedLocally v), []⟩
    | none =>
      match migs1.findIdx? (fun m => decide (m.Info.state = .pending)) with
      | none => ⟨0, h1, migs1, none, []⟩
      | some i =>
        match migs1[i]? with
        | none => ⟨0, h1, migs1, none, []⟩
        | some m =>
          let (h2, m1, e2) := migrateSingle h1 m
          match e2 with
          | some e =>
            let (h3, m2) := recordFailure h2 m1
            ⟨0, h3, migs1.set i m2, some e, [m.Info.version]⟩
          | none => ⟨1, h2, migs1.set i m1, none, [m.Info.version]⟩

/-- One iteration of `Migrate`'s loop: `h.lock(func() { migrateNext ... })`.
The connection/transaction mechanics of `lock` are modelled separately (see
`lockModel`); at the orchestration level acquiring the lock sets `dbLock` and
releasing it clears it again. -/
def lockPass (h : HistoryState) (migs : List OMigration) : MNRes :=
  if h.locked then ⟨0, h, migs, some .alreadyLockedErr, []⟩
  else
    let r := migrateNext { h with locked := true } migs
    { r with hist := { r.hist with locked := false } }

/-- The `for {}` loop of `migrationHistory.Migrate` (source lines 200-220):
repeat lock-and-migrate passes until a pass applies nothing or fails; the
first error stops the run and is returned.  `fuel` bounds the number of
passes (the Go loop is unbounded but terminates because each pass either
stops or applies one migration). -/
def migrateLoop : Nat → HistoryState → List OMigration → Nat → List MVersion → MNRes
  | 0, h, migs, total, attempts => ⟨total, h, migs, none, attempts⟩
  | fuel + 1, h, migs, total, attempts =>
    let r := lockPass h migs
    match r.err with
    | some e => ⟨total, r.hist, r.migs, some e, attempts ++ r.attempts⟩
    | none =>
      if r.count = 0 then ⟨total, r.hist, r.migs, none, attempts ++ r.attempts⟩
      else migrateLoop fuel r.hist r.migs (total + r.count) (attempts ++ r.attempts)

/-- `migrationHistory.Migrate` without the bootstrap (`createTable` is assumed
to have succeeded — the table is the model's `table` list) and without the
`Prepare` phase (the model's migrations already carry their commands): sort
the registered migrations, then run lock-and-migrate passes to completion. -/
def MigrateModel (fuel : Nat) (h : HistoryState) (migs : List OMigration) : MNRes :=
  migrateLoop fuel h (sortMigrations migs) 0 []

/-- One ledger append as the orchestrator performs it: every `migrateNext`
pass re-loads the applied rows (`getAppliedMigrations`) at its start, before
any `addAppliedMigration` of that pass runs. -/
def passAppend (h : HistoryState) (op : MigrationInfo × Bool) :
    HistoryState × Option Int :=
  let h1 := (getAppliedMigrations h).2
  match addAppliedMigration h1 op.1 op.2 with
  | .ok (h2, r) => (h2, some r)
  | .error _ => (h1, none)

/-- The ranks assigned by a sequence of orchestrator-style appends starting
from a given state. -/
def runRanksAux (h : HistoryState) : List (MigrationInfo × Bool) → List Int
  | [] => []
  | op :: rest =>
    match passAppend h op with
    | (h1, some r) => r :: runRanksAux h1 rest
    | (h1, none) => runRanksAux h1 rest

/-- An empty, locked history store: the state in which the first append to a
fresh ledger happens. -/
def lockedEmpty : HistoryState := ⟨[], [], true⟩

/-- The ranks assigned across a whole run of orchestrator-style appends on an
initially empty ledger. -/
def runRanks (ops : List (MigrationInfo × Bool)) : List Int :=
  runRanksAux lockedEmpty ops

/-- Invariant relating a history state to the last assigned rank `r`: the
store is locked, `r` is positive, some table row carries rank `r`, every
table row's rank is at most `r`, and every cached row's rank is below `r`.
This is the state of the store right after an append returned rank `r`. -/
def PState (h : HistoryState) (r : Int) : Prop :=
  h.locked = true ∧ 1 ≤ r ∧
  (∃ row ∈ h.table, row.installedRank = r) ∧
  (∀ row ∈ h.table, row.installedRank ≤ r) ∧
  (∀ row ∈ h.cache, row.installedRank < r)

/-- A local definition that raises no error in the second loop of
`migrateNext`: either it has no applied row and is repeatable or newer than
`lastAppliedVersion`, or its applied row is a failure, or its applied row
matches checksum and description. -/
def defClean (la : Option MVersion) (ab : AList) (m : OMigration) : Bool :=
  match lookupRow m.Info.version ab with
  | none => m.Info.version = .R ∨ 0 < compareVersionOpt m.Info.version la
  | some row =>
    ¬(row.success = true) ∨
      (row.checksum = m.Info.checksum ∧ row.description = m.Info.description)

/-! ## Lock coordinator (`migrationHistory.lock` and `Database.Transaction`)

`lock` takes a dedicated connection, opens a transaction on it, issues
`SELECT * FROM <table> FOR UPDATE`, runs the callback, and always lets the
transaction callback return `nil` so that `Transaction` commits; the callback
error is stored aside (`cbErr`) and takes precedence in the returned value.
The deferred block clears `dbLock` and releases the connection on every path
after acquisition.  Whether each environmental step (connection acquisition,
begin, the locking select, commit, rollback) succeeds is an input. -/

/-- Success/failure of the environmental steps involved in one `lock` call. -/
structure LockEnv where
  connOk : Bool
  beginOk : Bool
  selectOk : Bool
  commitOk : Bool
  rollbackOk : Bool
deriving DecidableEq, Repr

/-- Observable resource events of one `lock` call. -/
inductive LockEvent where
  | commit | rollback | releaseConn
deriving DecidableEq, BEq, Repr

/-- Errors surfaced by `lock` / `Transaction`. -/
inductive LErr where
  | alreadyLocked
  | connFail
  | beginFail
  | acquireFail
  | commitFail
  | rollbackJoined (e : LErr)
  | cbErr (e : String)
deriving DecidableEq, Repr

/-- `Database.Transaction` (z_to_refactor_jsonb.go lines 357-388) given the
result the callback body would produce: begin a transaction; if the body
returns no error, commit (the commit attempt is the `commit` event, failing
with `commitFail` when the environment refuses); otherwise roll back, joining
a rollback failure onto the body's error. -/
def TransactionModel (env : LockEnv) (bodyErr : Option LErr) :
    Option LErr × List LockEvent :=
  if env.beginOk = false then (some .beginFail, [])
  else
    match bodyErr with
    | none => (if env.commitOk then none else some .commitFail, [.commit])
    | some e =>
      (if env.rollbackOk then some e else some (.rollbackJoined e), [.rollback])

/-- `migrationHistory.lock` (source lines 594-636).  State is just whether
`dbLock` is currently set; the callback's outcome is given as `cb`
(`none` = the callback returns `nil`).  Returns the error, the new lock
state, and the event trace. -/
def lockModel (dbLock : Bool) (env : LockEnv) (cb : Option String) :
    Option LErr × Bool × List LockEvent :=
  if dbLock then (some .alreadyLocked, dbLock, [])
  else if env.connOk = false then (some .connFail, dbLock, [])
  else
    let bodyErr : Option LErr := if env.selectOk then none else some .acquireFail
    let cbRan : Bool := env.beginOk && env.selectOk
    let (txErr, evs) := TransactionModel env bodyErr
    let res : Option LErr :=
      match (if cbRan then cb else none) with
      | some e => some (.cbErr e)
      | none => txErr
    (res, false, evs ++ [.releaseConn])

/-! ## Registration (`Database.AddMigration`, migrate.go lines 113-152) -/

/-- Registration errors (`AddMigration`'s three `errors.New` sites).  The
semantic-version validity check cannot fail in this model because every
`MVersion` value is valid by construction (string parsing is outside the
model). -/
inductive RegErr where
  | invalidVersion (version : MVersion)
  | missingDescription (version : MVersion)
  | duplicateVersion (version : MVersion) (existingDescription newDescription : String)
deriving DecidableEq, Repr

/-- The description truncation of `AddMigration`: Go checks `len(description)`
(bytes) and keeps the first 200 runes (characters). -/
def truncateDescription (d : String) : String :=
  if 200 < d.utf8ByteSize then ⟨d.data.take 200⟩ else d

/-- `Database.AddMigration`: validate the description (empty is an error,
over-long is truncated), refuse any version already registered — including
the repeatable marker `R`, since the duplicate check does not special-case
it — and append the new definition with state pending and empty checksum. -/
def AddMigration (migrations : List OMigration) (version : MVersion)
    (description : String) (commands : List (Option String)) :
    Except RegErr (List OMigration) :=
  if description.utf8ByteSize = 0 then .error (.missingDescription version)
  else
    let desc := truncateDescription description
    let migration : OMigration :=
      { Repeat := version = .R
        Info := { version := version, state := .pending, description := desc
                  installedRank := 0, checksum := "" }
        commands := commands }
    match migrations.find? (fun m => decide (m.Info.version = version)) with
    | some m0 =>
      .error (.duplicateVersion version m0.Info.description desc)
    | none => .ok (migrations ++ [migration])

/-! ## Lemmas about the stable sort -/

theorem sinsert_perm (less : α → α → Bool) (a : α) (l : List α) :
    (sinsert less a l).Perm (a :: l) := by
  induction l with
  | nil => simp [sinsert]
  | cons b t ih =>
    by_cases h : less b a
    · simp only [sinsert, h, if_true]
      exact (ih.cons b).trans (List.Perm.swap a b t)
    · simp [sinsert, h]

theorem ssort_perm (less : α → α → Bool) (l : List α) : (ssort less l).Perm l := by
  induction l with
  | nil => simp [ssort]
  | cons a t ih => exact (sinsert_perm less a (ssort less t)).trans (ih.cons a)

theorem sinsert_pairwise (less : α → α → Bool)
    (hasym : ∀ x y, less x y = true → less y x = false)
    (htrans : ∀ x y z, less y x = false → less z y = false → less z x = false)
    (a : α) (l : List α) (hl : l.Pairwise (fun x y => less y x = false)) :
    (sinsert less a l).Pairwise (fun x y => less y x = false) := by
  induction l with
  | nil => simp [sinsert]
  | cons b t ih =>
    rcases List.pairwise_cons.mp hl with ⟨hb, ht⟩
    by_cases h : less b a
    · simp only [sinsert, h, if_true]
      refine List.pairwise_cons.mpr ⟨?_, ih ht⟩
      intro y hy
      rcases List.mem_cons.mp ((sinsert_perm less a t).mem_iff.mp hy) with rfl | hyt
      · exact hasym b y h
      · exact hb y hyt
    · have hba : less b a = false := by
        revert h; cases less b a <;> simp
      simp only [sinsert, h, if_false, hba]
      refine List.pairwise_cons.mpr ⟨?_, hl⟩
      intro y hy
      rcases List.mem_cons.mp hy with rfl | hyt
      · exact hba
      · exact htrans a b y hba (hb y hyt)

theorem ssort_pairwise (less : α → α → Bool)
    (hasym : ∀ x y, less x y = true → less y x = false)
    (htrans : ∀ x y z, less y x = false → less z y = false → less z x = false)
    (l : List α) :
    (ssort less l).Pairwise (fun x y => less y x = false) := by
  induction l with
  | nil => simp [ssort]
  | cons a t ih => exact sinsert_pairwise less hasym htrans a (ssort less t) ih

theorem filter_sinsert_neg (less : α → α → Bool) (p : α → Bool) (a : α)
    (l : List α) (ha : p a = false) :
    (sinsert less a l).filter p = l.filter p := by
  induction l with
  | nil => simp [sinsert, ha]
  | cons b t ih =>
    by_cases h : less b a
    · simp [sinsert, h, List.filter_cons, ih]
    · simp [sinsert, h, List.filter_cons, ha]

theorem filter_sinsert_pos (less : α → α → Bool) (p : α → Bool) (a : α)
    (l : List α) (ha : p a = true)
    (hmove : ∀ b ∈ l, p b = true → less b a = false) :
    (sinsert less a l).filter p = a :: l.filter p := by
  induction l with
  | nil => simp [sinsert, ha]
  | cons b t ih =>
    have ihr : (sinsert less a t).filter p = a :: t.filter p :=
      ih (fun c hc hpc => hmove c (List.mem_cons_of_mem b hc) hpc)
    by_cases h : less b a
    · have hpb : p b = false := by
        by_contra hb
        have hpb : p b = true := by
          revert hb; cases p b <;> simp
        have hh := hmove b (List.mem_cons_self b t) hpb
        rw [hh] at h
        simp at h
      simp [sinsert, h, List.filter_cons, hpb, ihr]
    · simp [sinsert, h, List.filter_cons, ha]

/-- A value returned by `getLast?` is a member of the list. -/
theorem mem_of_getLastQ : ∀ (l : List α) (b : α), l.getLast? = some b → b ∈ l
  | [], _, hb => by simp at hb
  | [a], b, hb => by
    simp at hb
    simp [hb]
  | a :: c :: u, b, hb => by
    rw [List.getLast?_cons_cons] at hb
    exact List.mem_cons_of_mem a (mem_of_getLastQ (c :: u) b hb)

/-- In a list sorted by `fun x y => less y x = false`, every element is
"less-or-equal" to the last one. -/
theorem pairwise_getLast (S : α → α → Prop) (l : List α) (b : α)
    (hl : l.Pairwise S) (hb : l.getLast? = some b) :
    ∀ x ∈ l, x = b ∨ S x b := by
  induction l with
  | nil => simp at hb
  | cons a t ih =>
    rcases List.pairwise_cons.mp hl with ⟨ha, ht⟩
    cases t with
    | nil =>
      simp at hb
      intro x hx
      simp at hx
      simp [hx, hb]
    | cons c u =>
      have hb' : (c :: u).getLast? = some b := by
        rw [← hb, List.getLast?_cons_cons]
      intro x hx
      rcases List.mem_cons.mp hx with rfl | hxt
      · right
        exact ha b (mem_of_getLastQ (c :: u) b hb')
      · exact ih ht hb' x hxt

/-! ## Lemmas about version comparison and the sort predicates -/

theorem semverCompare_eq_zero_iff (a b : MVersion) :
    semverCompare a b = 0 ↔ a = b := by
  cases a <;> cases b <;>
    simp only [semverCompare, MVersion.sem.injEq] <;>
    first
      | simp
      | (constructor
         · intro h
           split_ifs at h <;> omega
         · rintro ⟨h1, h2, h3⟩
           subst h1; subst h2; subst h3
           split_ifs <;> omega)

theorem semverCompare_lt_asymm (a b : MVersion) (h : semverCompare a b < 0) :
    ¬ semverCompare b a < 0 := by
  cases a <;> cases b <;> simp only [semverCompare] at h ⊢ <;> omega

theorem semverCompare_nonneg_trans (x y z : MVersion)
    (h1 : 0 ≤ semverCompare y x) (h2 : 0 ≤ semverCompare z y) :
    0 ≤ semverCompare z x := by
  cases x <;> cases y <;> cases z <;>
    simp only [semverCompare] at h1 h2 ⊢ <;> omega

theorem migLess_asymm (x y : OMigration) (h : migLess x y = true) :
    migLess y x = false := by
  simp only [migLess] at h ⊢
  cases px : x.Repeat <;> cases py : y.Repeat <;>
    simp only [px, py, reduceIte, decide_eq_true_eq, decide_eq_false_iff_not,
      Bool.true_eq_false, Bool.false_eq_true] at h ⊢ <;>
    first
      | trivial
      | (exact semverCompare_lt_asymm _ _ h)

theorem migLess_trans (x y z : OMigration) (h1 : migLess y x = false)
    (h2 : migLess z y = false) : migLess z x = false := by
  simp only [migLess] at h1 h2 ⊢
  cases px : x.Repeat <;> cases py : y.Repeat <;> cases pz : z.Repeat <;>
    simp only [px, py, pz, if_true, if_false, reduceIte, decide_eq_false_iff_not,
      decide_eq_true_eq, Bool.true_eq_false, Bool.false_eq_true] at h1 h2 ⊢ <;>
    first
      | trivial
      | (intro hc
         have g1 : 0 ≤ semverCompare y.Info.version x.Info.version := by omega
         have g2 : 0 ≤ semverCompare z.Info.version y.Info.version := by omega
         have := semverCompare_nonneg_trans _ _ _ g1 g2
         omega)

theorem rankLess_asymm (x y : LedgerRow) (h : rankLess x y = true) :
    rankLess y x = false := by
  simp only [rankLess, decide_eq_true_eq, decide_eq_false_iff_not] at h ⊢
  omega

theorem rankLess_trans (x y z : LedgerRow) (h1 : rankLess y x = false)
    (h2 : rankLess z y = false) : rankLess z x = false := by
  simp only [rankLess, decide_eq_false_iff_not] at h1 h2 ⊢
  omega

theorem semverCompare_neg (a b : MVersion) :
    semverCompare a b = -semverCompare b a := by
  cases a <;> cases b <;> simp only [semverCompare] <;> omega

theorem sortMigrations_pairwise (ms : List OMigration) :
    (sortMigrations ms).Pairwise (fun x y => migLess y x = false) :=
  ssort_pairwise migLess migLess_asymm migLess_trans ms

/-- Stability of the sort on the repeatable definitions: when every repeatable
definition carries version `R` (as `AddMigration` guarantees), the repeatable
definitions keep their relative insertion order. -/
theorem sortMigrations_filter_repeat (ms : List OMigration)
    (hwf : ∀ m ∈ ms, m.Repeat = true → m.Info.version = .R) :
    (sortMigrations ms).filter (fun m => m.Repeat) =
      ms.filter (fun m => m.Repeat) := by
  induction ms with
  | nil => simp [sortMigrations, ssort]
  | cons m rest ih =>
    have ihr := ih (fun b hb hrb => hwf b (List.mem_cons_of_mem m hb) hrb)
    show (sinsert migLess m (ssort migLess rest)).filter (fun m => m.Repeat) = _
    cases hr : m.Repeat with
    | false =>
      rw [filter_sinsert_neg migLess _ m _ hr]
      simp [List.filter_cons, hr]
      exact ihr
    | true =>
      rw [filter_sinsert_pos migLess _ m _ hr]
      · simp [List.filter_cons, hr]
        exact ihr
      · intro b hb hrb
        have hbrest : b ∈ rest := (ssort_perm migLess rest).mem_iff.mp hb
        have hbv : b.Info.version = .R := hwf b (List.mem_cons_of_mem m hbrest) hrb
        have hmv : m.Info.version = .R := hwf m (List.mem_cons_self m rest) hr
        simp [migLess, hrb, hr, hbv, hmv, semverCompare]

/-- C6: the sort performed at the start of a run (`sort.SliceStable` with the
comparison of `Migrate`) permutes the registered definitions so that all
non-repeatable definitions come first in strictly ascending semantic-version
order, every repeatable definition comes after every non-repeatable one, and
the repeatable definitions keep their relative insertion order.  The
hypotheses hold for every registrable list: `AddMigration` gives every
repeatable definition version `R` and rejects duplicate versions. -/
theorem c6_sort_order (ms : List OMigration)
    (hwf : ∀ m ∈ ms, m.Repeat = true → m.Info.version = .R)
    (hdist : (ms.filter (fun m => !m.Repeat)).Pairwise
      (fun a b => a.Info.version ≠ b.Info.version)) :
    (sortMigrations ms).Perm ms ∧
    (sortMigrations ms).Pairwise (fun x y => x.Repeat = true → y.Repeat = true) ∧
    ((sortMigrations ms).filter (fun m => !m.Repeat)).Pairwise
      (fun a b => semverCompare a.Info.version b.Info.version < 0) ∧
    (sortMigrations ms).filter (fun m => m.Repeat) =
      ms.filter (fun m => m.Repeat) := by
  have hperm : (sortMigrations ms).Perm ms := ssort_perm migLess ms
  have hpw := sortMigrations_pairwise ms
  refine ⟨hperm, ?_, ?_, sortMigrations_filter_repeat ms hwf⟩
  · refine hpw.imp ?_
    intro x y h hx
    by_contra hy
    have hy' : y.Repeat = false := by
      cases hyv : y.Repeat
      · rfl
      · exact absurd hyv hy
    have hxy : migLess y x = true := by
      simp [migLess, hy', hx]
    rw [hxy] at h
    simp at h
  · have hsub := List.filter_sublist (p := fun m => !m.Repeat) (sortMigrations ms)
    have hpf := hpw.sublist hsub
    have hsymm : ∀ {a b : OMigration},
        a.Info.version ≠ b.Info.version → b.Info.version ≠ a.Info.version :=
      fun h => h.symm
    have hdist' : ((sortMigrations ms).filter (fun m => !m.Repeat)).Pairwise
        (fun a b => a.Info.version ≠ b.Info.version) :=
      ((hperm.filter (fun m => !m.Repeat)).pairwise_iff hsymm).mpr hdist
    refine (hpf.and hdist').imp_of_mem ?_
    intro a b ha hb hab
    obtain ⟨hle, hne⟩ := hab
    have hra : a.Repeat = false := by
      have := (List.mem_filter.mp ha).2
      simpa using this
    have hrb : b.Repeat = false := by
      have := (List.mem_filter.mp hb).2
      simpa using this
    have hle' : ¬ semverCompare b.Info.version a.Info.version < 0 := by
      simpa [migLess, hra, hrb] using hle
    have hz : ¬ semverCompare b.Info.version a.Info.version = 0 := by
      intro h0
      exact hne (((semverCompare_eq_zero_iff _ _).mp h0).symm)
    have hflip := semverCompare_neg a.Info.version b.Info.version
    omega

/-- Witness for `c6_sort_order` at a concrete registrable list. -/
theorem c6_sort_order_witness :
    ((sortMigrations
        [⟨true, ⟨.R, .pending, "r1", 0, ""⟩, []⟩,
         ⟨false, ⟨.sem 2 0 0, .pending, "b", 0, ""⟩, []⟩,
         ⟨false, ⟨.sem 1 0 0, .pending, "a", 0, ""⟩, []⟩]).Perm
      [⟨true, ⟨.R, .pending, "r1", 0, ""⟩, []⟩,
       ⟨false, ⟨.sem 2 0 0, .pending, "b", 0, ""⟩, []⟩,
       ⟨false, ⟨.sem 1 0 0, .pending, "a", 0, ""⟩, []⟩]) ∧
    (sortMigrations
        [⟨true, ⟨.R, .pending, "r1", 0, ""⟩, []⟩,
         ⟨false, ⟨.sem 2 0 0, .pending, "b", 0, ""⟩, []⟩,
         ⟨false, ⟨.sem 1 0 0, .pending, "a", 0, ""⟩, []⟩]).filter
        (fun m => m.Repeat) =
      [⟨true, ⟨.R, .pending, "r1", 0, ""⟩, []⟩] := by
  have h := c6_sort_order
    [⟨true, ⟨.R, .pending, "r1", 0, ""⟩, []⟩,
     ⟨false, ⟨.sem 2 0 0, .pending, "b", 0, ""⟩, []⟩,
     ⟨false, ⟨.sem 1 0 0, .pending, "a", 0, ""⟩, []⟩]
    (by decide) (by decide)
  refine ⟨h.1, ?_⟩
  rw [h.2.2.2]
  decide

/-! ## Checksum lemmas (claims C4 and C9) -/

/-- The checksum resulting from a build depends only on each step's hash key
(SQL text for `ExecSql`, name for `ExecFn`), starting from any builder
state with the same checksum. -/
theorem checksum_dep_only_key (hash : String → String) :
    ∀ (steps1 steps2 : List BuildStep) (m1 m2 : BMigration),
      steps1.map stepHashKey = steps2.map stepHashKey →
      m1.checksum = m2.checksum →
      (steps1.foldl (applyStep hash) m1).checksum =
        (steps2.foldl (applyStep hash) m2).checksum := by
  intro steps1
  induction steps1 with
  | nil =>
    intro steps2 m1 m2 hkeys hc
    cases steps2 with
    | nil => simpa using hc
    | cons s t => simp at hkeys
  | cons s1 t1 ih =>
    intro steps2 m1 m2 hkeys hc
    cases steps2 with
    | nil => simp at hkeys
    | cons s2 t2 =>
      simp only [List.map_cons, List.cons.injEq] at hkeys
      obtain ⟨hk, ht⟩ := hkeys
      refine ih t2 (applyStep hash m1 s1) (applyStep hash m2 s2) ht ?_
      cases s1 with
      | sql sql1 args1 =>
        cases s2 with
        | sql sql2 args2 =>
          simp only [stepHashKey, Prod.mk.injEq] at hk
          simp [applyStep, ExecSql, hk.2, hc]
        | fn n2 c2 cb2 a2 => simp [stepHashKey] at hk
      | fn n1 c1 cb1 a1 =>
        cases s2 with
        | sql sql2 args2 => simp [stepHashKey] at hk
        | fn n2 c2 cb2 a2 =>
          simp only [stepHashKey, Prod.mk.injEq] at hk
          simp [applyStep, ExecFn, hk.2, hc]

/-- C4: the checksum is a rolling hash — the builder starts from the empty
string and each appended command updates it to
`hash (previousChecksum ++ hash commandContent)` — and the construction is
order-sensitive: for two distinct commands `A` and `B`, a migration built
as `[A, B]` and one built as `[B, A]` have different checksums.  The md5 hex
digest is abstracted as `hash`; order sensitivity requires that `hash` does
not collide on the relevant inputs, stated here as injectivity together with
equal digest lengths for `A` and `B` (md5 hex digests all have length 32). -/
theorem c4_rolling_checksum (hash : String → String) (A B : String)
    (hinj : Function.Injective hash)
    (hlen : (hash A).length = (hash B).length) (hne : A ≠ B) :
    (buildMigration hash []).checksum = "" ∧
    (∀ (m : BMigration) (s : String) (args : List String),
      (ExecSql hash m s args).checksum = hash (m.checksum ++ hash s)) ∧
    (∀ (m : BMigration) (name caller : String) (cb : Nat) (args : List String),
      (ExecFn hash m name caller cb args).checksum = hash (m.checksum ++ hash name)) ∧
    (buildMigration hash [.sql A [], .sql B []]).checksum ≠
      (buildMigration hash [.sql B [], .sql A []]).checksum := by
  refine ⟨rfl, fun _ _ _ => rfl, fun _ _ _ _ _ => rfl, ?_⟩
  intro heq
  simp only [buildMigration, List.foldl, applyStep, ExecSql] at heq
  have h1 := hinj heq
  have h2 : (hash ("" ++ hash A)).data ++ (hash B).data =
      (hash ("" ++ hash B)).data ++ (hash A).data := by
    have := congrArg String.data h1
    simpa [String.data_append] using this
  have hlen' : (hash B).data.length = (hash A).data.length := by
    have ha : (hash A).length = (hash A).data.length := rfl
    have hb : (hash B).length = (hash B).data.length := rfl
    rw [← ha, ← hb]
    exact hlen.symm
  have hsplit := List.append_inj' h2 hlen'
  have hba : hash B = hash A := String.ext hsplit.2
  exact hne (hinj hba).symm

/-- Witness for `c4_rolling_checksum` at `hash = id`, `A = "ab"`, `B = "cd"`
(distinct commands with equal digest lengths under this hash). -/
theorem c4_rolling_checksum_witness :
    ("ab" : String) ≠ "cd" ∧
    (buildMigration id [.sql "ab" [], .sql "cd" []]).checksum ≠
      (buildMigration id [.sql "cd" [], .sql "ab" []]).checksum := by
  have h := c4_rolling_checksum id "ab" "cd" (fun _ _ hab => hab)
    (by decide) (by decide)
  exact ⟨by decide, h.2.2.2⟩

/-- C9: the checksum depends only on the SQL text of each `ExecSql` command
and the name string of each `ExecFn` command — two builds whose steps have
pairwise identical kinds and texts/names but arbitrary bound arguments,
caller positions and callback functions produce equal checksums. -/
theorem c9_checksum_ignores_args (hash : String → String)
    (steps1 steps2 : List BuildStep)
    (hkeys : steps1.map stepHashKey = steps2.map stepHashKey) :
    (buildMigration hash steps1).checksum = (buildMigration hash steps2).checksum :=
  checksum_dep_only_key hash steps1 steps2 ⟨[], ""⟩ ⟨[], ""⟩ hkeys rfl

/-- Witness for `c9_checksum_ignores_args`: same SQL text and same `ExecFn`
name, different bound arguments and different callback identities, equal
checksums (here with `hash = id`). -/
theorem c9_checksum_ignores_args_witness :
    ([BuildStep.sql "S" ["x"], BuildStep.fn "N" "caller1" 1 []].map stepHashKey =
      [BuildStep.sql "S" [], BuildStep.fn "N" "caller2" 2 ["y"]].map stepHashKey) ∧
    (buildMigration id [.sql "S" ["x"], .fn "N" "caller1" 1 []]).checksum =
      (buildMigration id [.sql "S" [], .fn "N" "caller2" 2 ["y"]]).checksum := by
  refine ⟨by decide, ?_⟩
  exact c9_checksum_ignores_args id _ _ (by decide)

/-! ## Lock coordinator lemmas (claim C5) -/

/-- A `lock` call on an unlocked coordinator is never rejected as re-entrant,
whatever the environment and callback do. -/
theorem lockModel_unlocked_not_already (env : LockEnv) (cb : Option String) :
    (lockModel false env cb).1 ≠ some .alreadyLocked := by
  rcases env with ⟨c, b, s, co, r⟩
  cases c <;> cases b <;> cases s <;> cases co <;> cases r <;> cases cb <;>
    simp [lockModel, TransactionModel]

/-- C5: if the lock is acquired (connection, transaction begin and the
locking select all succeed), then on every return path — whether or not the
callback fails — the lock transaction is committed exactly once and never
rolled back, the dedicated connection is released exactly once, the
coordinator ends unlocked (a subsequent `lock` call is not rejected as
re-entrant), and a callback error is the value returned to the caller. -/
theorem c5_lock_release (env : LockEnv) (cb : Option String)
    (hconn : env.connOk = true) (hbegin : env.beginOk = true)
    (hselect : env.selectOk = true) :
    ((lockModel false env cb).2.2.count .commit = 1) ∧
    ((lockModel false env cb).2.2.count .rollback = 0) ∧
    ((lockModel false env cb).2.2.count .releaseConn = 1) ∧
    ((lockModel false env cb).2.1 = false) ∧
    (∀ e, cb = some e → (lockModel false env cb).1 = some (.cbErr e)) ∧
    (∀ (env2 : LockEnv) (cb2 : Option String),
      (lockModel (lockModel false env cb).2.1 env2 cb2).1 ≠ some .alreadyLocked) := by
  rcases env with ⟨c, b, s, co, r⟩
  simp only at hconn hbegin hselect
  subst hconn; subst hbegin; subst hselect
  refine ⟨?_, ?_, ?_, ?_, ?_, ?_⟩
  · cases co <;> cases cb <;> simp [lockModel, TransactionModel, List.count_cons] <;> decide
  · cases co <;> cases cb <;> simp [lockModel, TransactionModel, List.count_cons] <;> decide
  · cases co <;> cases cb <;> simp [lockModel, TransactionModel, List.count_cons] <;> decide
  · cases co <;> cases cb <;> simp [lockModel, TransactionModel]
  · intro e he
    subst he
    cases co <;> simp [lockModel, TransactionModel]
  · intro env2 cb2
    have hst : (lockModel false ⟨true, true, true, co, r⟩ cb).2.1 = false := by
      cases co <;> cases cb <;> simp [lockModel, TransactionModel]
    rw [hst]
    exact lockModel_unlocked_not_already env2 cb2

/-- Witness for `c5_lock_release`: a fully successful environment with a
failing callback. -/
theorem c5_lock_release_witness :
    ((lockModel false ⟨true, true, true, true, true⟩ (some "cb failed")).2.2.count
        .commit = 1) ∧
    ((lockModel false ⟨true, true, true, true, true⟩ (some "cb failed")).1 =
        some (.cbErr "cb failed")) := by
  have h := c5_lock_release ⟨true, true, true, true, true⟩ (some "cb failed")
    rfl rfl rfl
  exact ⟨h.1, h.2.2.2.2.1 "cb failed" rfl⟩

/-! ## Registration lemmas (claim C7) -/

instance exceptDecidableEq {ε α : Type} [DecidableEq ε] [DecidableEq α] :
    DecidableEq (Except ε α)
  | .error a, .error b =>
    if h : a = b then isTrue (congrArg Except.error h)
    else isFalse (fun hc => h (by injection hc))
  | .error _, .ok _ => isFalse (fun hc => Except.noConfusion hc)
  | .ok _, .error _ => isFalse (fun hc => Except.noConfusion hc)
  | .ok a, .ok b =>
    if h : a = b then isTrue (congrArg Except.ok h)
    else isFalse (fun hc => h (by injection hc))

/-- C7 counterexample: registering the repeatable marker `R` a second time
does NOT succeed — the duplicate check of `AddMigration` does not exempt the
repeatable marker, so the second registration fails with the
duplicate-version error. -/
theorem c7_counterexample :
    AddMigration [] .R "first repeatable" [] =
      .ok [⟨true, ⟨.R, .pending, "first repeatable", 0, ""⟩, []⟩] ∧
    AddMigration [⟨true, ⟨.R, .pending, "first repeatable", 0, ""⟩, []⟩] .R
        "second repeatable" [] =
      .error (.duplicateVersion .R "first repeatable" "second repeatable") := by
  constructor <;> decide

/-- C7 (amended): registration rejects ANY already-registered version with the
duplicate-version error — including the repeatable marker `R` — and a version
not yet registered (with a nonempty description) is appended successfully. -/
theorem c7_duplicate_rejected (migs : List OMigration) (v : MVersion)
    (d : String) (cmds : List (Option String)) (m0 : OMigration)
    (hd : ¬ d.utf8ByteSize = 0)
    (hfind : migs.find? (fun m => decide (m.Info.version = v)) = some m0) :
    (AddMigration migs v d cmds =
      .error (.duplicateVersion v m0.Info.description (truncateDescription d))) ∧
    (∀ (migs2 : List OMigration) (d2 : String) (cmds2 : List (Option String)),
      ¬ d2.utf8ByteSize = 0 →
      migs2.find? (fun m => decide (m.Info.version = v)) = none →
      AddMigration migs2 v d2 cmds2 =
        .ok (migs2 ++
          [⟨decide (v = .R), ⟨v, .pending, truncateDescription d2, 0, ""⟩, cmds2⟩])) := by
  constructor
  · simp only [AddMigration, hd, if_false, hfind]
  · intro migs2 d2 cmds2 hd2 hfind2
    simp only [AddMigration, hd2, if_false, hfind2]

/-- Witness for `c7_duplicate_rejected`: a duplicate non-repeatable version is
rejected; the same version registers fine on an empty registry. -/
theorem c7_duplicate_rejected_witness :
    (AddMigration [⟨false, ⟨.sem 1 0 0, .pending, "one", 0, ""⟩, []⟩]
        (.sem 1 0 0) "one again" [] =
      .error (.duplicateVersion (.sem 1 0 0) "one" "one again")) ∧
    (AddMigration [] (.sem 1 0 0) "one" [] =
      .ok [⟨false, ⟨.sem 1 0 0, .pending, "one", 0, ""⟩, []⟩]) := by
  have h := c7_duplicate_rejected [⟨false, ⟨.sem 1 0 0, .pending, "one", 0, ""⟩, []⟩]
    (.sem 1 0 0) "one again" [] ⟨false, ⟨.sem 1 0 0, .pending, "one", 0, ""⟩, []⟩
    (by decide) (by decide)
  constructor
  · have h1 := h.1
    rw [h1]
    decide
  · have h2 := h.2 [] "one" [] (by decide) (by decide)
    rw [h2]
    decide

/-! ## Repeatable reconciliation lemmas (claim C8) -/

/-- `buildAppliedMaps` never records the repeatable marker: applied rows with
version `R` are skipped, so `appliedByVersion` has no entry for `R`. -/
theorem lookupRow_R_upsertA (k : MVersion) (v : Option LedgerRow) (l : AList)
    (hk : ¬ k = .R) : lookupRow .R (upsertA k v l) = lookupRow .R l := by
  induction l with
  | nil => simp [upsertA, lookupRow, hk]
  | cons kv rest ih =>
    obtain ⟨k1, v1⟩ := kv
    by_cases h1 : k1 = k
    · subst h1
      simp [upsertA, lookupRow, hk]
    · simp [upsertA, lookupRow, h1, ih]

theorem buildAppliedMaps_no_R (applied : List LedgerRow) :
    lookupRow .R (buildAppliedMaps applied).2.1 = none := by
  suffices h : ∀ (nr ab : AList) (la : Option MVersion),
      lookupRow .R ab = none →
      lookupRow .R (applied.foldl
        (fun acc row =>
          let (nr1, ab1, la1) := acc
          if row.version = .R then acc
          else
            (upsertA row.version (some row) nr1,
             upsertA row.version (some row) ab1,
             if row.success = true ∧ 0 < compareVersionOpt row.version la1 then
               some row.version
             else la1))
        (nr, ab, la)).2.1 = none by
    exact h [] [] none rfl
  induction applied with
  | nil => intro nr ab la hab; simpa using hab
  | cons row rest ih =>
    intro nr ab la hab
    by_cases hr : row.version = .R
    · simpa [hr] using ih nr ab la hab
    · simp only [List.foldl_cons, hr, if_false]
      exact ih _ _ _ (by rw [lookupRow_R_upsertA row.version (some row) ab hr]; exact hab)

/-- Shape of one `reconcileLoop` step: the output list is the (possibly
state-updated) head followed by either the untouched tail (error in the head)
or the recursively processed tail. -/
theorem reconcileLoop_cons_tail (la : Option MVersion) (ab : AList)
    (x : OMigration) (rest : List OMigration) (nr : AList) :
    ∃ y, (reconcileLoop la ab (x :: rest) nr).2.1 = y :: rest ∨
      (reconcileLoop la ab (x :: rest) nr).2.1 =
        y :: (reconcileLoop la ab rest (upsertA x.Info.version none nr)).2.1 := by
  rcases hrec : reconcileLoop la ab rest (upsertA x.Info.version none nr) with
    ⟨nr2, rest1, e⟩
  cases hl : lookupRow x.Info.version ab with
  | none =>
    by_cases hc : ¬(x.Info.version = .R) ∧ compareVersionOpt x.Info.version la ≤ 0
    · refine ⟨{ x with Info := if x.Info.version = .R then x.Info
          else { x.Info with state := MigrationState.pending } }, Or.inl ?_⟩
      simp only [reconcileLoop, hl]
      rw [if_pos hc]
    · refine ⟨{ x with Info := if x.Info.version = .R then x.Info
          else { x.Info with state := MigrationState.pending } }, Or.inr ?_⟩
      simp only [reconcileLoop, hl, hrec]
      rw [if_neg hc]
  | some row =>
    by_cases hs : row.success = true
    · by_cases hcs : row.checksum = (if x.Info.version = .R then x.Info
          else { x.Info with state := MigrationState.pending }).checksum
      · by_cases hds : row.description = (if x.Info.version = .R then x.Info
            else { x.Info with state := MigrationState.pending }).description
        · refine ⟨{ x with Info :=
            { (if x.Info.version = .R then x.Info
               else { x.Info with state := MigrationState.pending }) with
              state := MigrationState.success } }, Or.inr ?_⟩
          simp only [reconcileLoop, hl, hrec]
          rw [if_pos hs, if_neg (not_not_intro hcs), if_neg (not_not_intro hds)]
        · refine ⟨{ x with Info := if x.Info.version = .R then x.Info
              else { x.Info with state := MigrationState.pending } }, Or.inl ?_⟩
          simp only [reconcileLoop, hl]
          rw [if_pos hs, if_neg (not_not_intro hcs), if_pos hds]
      · refine ⟨{ x with Info := if x.Info.version = .R then x.Info
            else { x.Info with state := MigrationState.pending } }, Or.inl ?_⟩
        simp only [reconcileLoop, hl]
        rw [if_pos hs, if_pos hcs]
    · refine ⟨{ x with Info := if x.Info.version = .R then x.Info
          else { x.Info with state := MigrationState.pending } }, Or.inr ?_⟩
      simp only [reconcileLoop, hl, hrec]
      rw [if_neg hs]

/-- A repeatable head is passed through unchanged (its state is not touched)
when `appliedByVersion` has no `R` entry. -/
theorem reconcileLoop_cons_R (la : Option MVersion) (ab : AList)
    (x : OMigration) (rest : List OMigration) (nr : AList)
    (hR : x.Info.version = .R) (hab : lookupRow .R ab = none) :
    (reconcileLoop la ab (x :: rest) nr).2.1 =
      x :: (reconcileLoop la ab rest (upsertA .R none nr)).2.1 := by
  rcases hrec : reconcileLoop la ab rest (upsertA .R none nr) with ⟨nr2, rest1, e⟩
  simp only [reconcileLoop, hR, hab, hrec]
  simp

theorem reconcileLoop_repeat_unchanged (la : Option MVersion) (ab : AList)
    (hab : lookupRow .R ab = none) :
    ∀ (ms : List OMigration) (nr : AList) (j : Nat) (m : OMigration),
      ms[j]? = some m → m.Info.version = .R →
      ((reconcileLoop la ab ms nr).2.1)[j]? = some m := by
  intro ms
  induction ms with
  | nil =>
    intro nr j m hj
    simp at hj
  | cons x rest ih =>
    intro nr j m hj hR
    cases j with
    | zero =>
      have hx : x = m := by simpa using hj
      rw [reconcileLoop_cons_R la ab x rest nr (by rw [hx]; exact hR) hab]
      simp [hx]
    | succ j1 =>
      simp only [List.getElem?_cons_succ] at hj
      obtain ⟨y, hy | hy⟩ := reconcileLoop_cons_tail la ab x rest nr
      · rw [hy]
        simpa using hj
      · rw [hy]
        simpa using ih _ j1 m hj hR

/-- C8 counterexample: a repeatable local definition that was applied earlier
in the same run (state Success) is NOT re-marked Pending by the next
reconciliation pass — it keeps state Success, is not among the pending
migrations, and the pass applies nothing. -/
theorem c8_counterexample :
    migrateNext ⟨[], [], true⟩ [⟨true, ⟨.R, .success, "r", 0, "cr"⟩, [none]⟩] =
      ⟨0, ⟨[], [], true⟩, [⟨true, ⟨.R, .success, "r", 0, "cr"⟩, [none]⟩],
        none, []⟩ := by
  decide

/-- C8 (amended): reconciliation leaves every repeatable definition exactly as
it was — it neither consults the ledger for it (applied `R` rows are skipped
when building the lookup) nor resets its state — so a repeatable definition is
among the pending migrations of a pass if and only if its in-memory state is
still Pending, i.e. it has not yet been applied earlier in the same run. -/
theorem c8_repeatable_untouched (h : HistoryState) (ms : List OMigration)
    (nr : AList) (j : Nat) (m : OMigration)
    (hj : ms[j]? = some m) (hR : m.Info.version = .R) :
    ((reconcileLoop (reconLA h) (reconAB h) ms nr).2.1)[j]? = some m := by
  have hab : lookupRow .R (reconAB h) = none :=
    buildAppliedMaps_no_R (getAppliedMigrations h).1
  exact reconcileLoop_repeat_unchanged (reconLA h) (reconAB h) hab ms nr j m hj hR

/-! ## History store lemmas (claims C2 and C1) -/

theorem sortCache_pairwise (l : List LedgerRow) :
    (sortCache l).Pairwise (fun x y => x.installedRank ≤ y.installedRank) := by
  have h := ssort_pairwise rankLess rankLess_asymm rankLess_trans l
  refine h.imp ?_
  intro a b hab
  simp only [rankLess, decide_eq_false_iff_not] at hab
  omega

theorem sortCache_mem (l : List LedgerRow) (x : LedgerRow) :
    x ∈ sortCache l ↔ x ∈ l :=
  (ssort_perm rankLess l).mem_iff

theorem le_getLast_of_sorted (l : List LedgerRow) (b : LedgerRow)
    (hp : l.Pairwise (fun x y => x.installedRank ≤ y.installedRank))
    (hb : l.getLast? = some b) :
    ∀ x ∈ l, x.installedRank ≤ b.installedRank := by
  intro x hx
  rcases pairwise_getLast _ l b hp hb x hx with rfl | hle
  · exact le_refl _
  · exact hle

/-- Every cached row's rank is at most `maxCachedRank`. -/
theorem maxCachedRank_ge (cache : List LedgerRow) :
    ∀ row ∈ cache, row.installedRank ≤ maxCachedRank cache := by
  intro row hrow
  unfold maxCachedRank
  cases hl : (sortCache cache).getLast? with
  | none =>
    rw [List.getLast?_eq_none_iff] at hl
    have : row ∈ sortCache cache := (sortCache_mem cache row).mpr hrow
    rw [hl] at this
    simp at this
  | some b =>
    exact le_getLast_of_sorted _ b (sortCache_pairwise cache) hl row
      ((sortCache_mem cache row).mpr hrow)

/-- If every cached row's rank is below a positive `r`, then `maxCachedRank`
is below `r` as well. -/
theorem maxCachedRank_lt (cache : List LedgerRow) (r : Int) (hr : 1 ≤ r)
    (hall : ∀ row ∈ cache, row.installedRank < r) :
    maxCachedRank cache < r := by
  unfold maxCachedRank
  cases hl : (sortCache cache).getLast? with
  | none =>
    show (-1 : Int) < r
    omega
  | some b =>
    exact hall b ((sortCache_mem cache b).mp (mem_of_getLastQ _ b hl))

theorem getApplied_fst (h : HistoryState) :
    (getAppliedMigrations h).1 =
      sortCache (sortCache h.cache ++
        sortCache (h.table.filter
          (fun r => maxCachedRank h.cache < r.installedRank))) := rfl

theorem getApplied_snd (h : HistoryState) :
    (getAppliedMigrations h).2 =
      { h with cache := (getAppliedMigrations h).1 } := rfl

theorem mem_getApplied_iff (h : HistoryState) (row : LedgerRow) :
    row ∈ (getAppliedMigrations h).1 ↔
      row ∈ h.cache ∨
        (row ∈ h.table ∧ maxCachedRank h.cache < row.installedRank) := by
  rw [getApplied_fst, sortCache_mem, List.mem_append, sortCache_mem, sortCache_mem,
    List.mem_filter]
  simp

theorem getApplied_pairwise (h : HistoryState) :
    (getAppliedMigrations h).1.Pairwise
      (fun x y => x.installedRank ≤ y.installedRank) := by
  rw [getApplied_fst]
  exact sortCache_pairwise _

/-- Specification of `calculateInstalledRank`'s returned rank and state. -/
theorem calculateInstalledRank_eq (h : HistoryState) :
    calculateInstalledRank h =
      match (getAppliedMigrations h).1.getLast? with
      | none => (1, (getAppliedMigrations h).2)
      | some r => (r.installedRank + 1, (getAppliedMigrations h).2) := rfl

theorem calculateInstalledRank_none (h : HistoryState)
    (hl : (getAppliedMigrations h).1.getLast? = none) :
    (calculateInstalledRank h).1 = 1 := by
  rw [calculateInstalledRank_eq, hl]

theorem calculateInstalledRank_some (h : HistoryState) (b : LedgerRow)
    (hl : (getAppliedMigrations h).1.getLast? = some b) :
    (calculateInstalledRank h).1 = b.installedRank + 1 := by
  rw [calculateInstalledRank_eq, hl]

theorem calculateInstalledRank_snd (h : HistoryState) :
    (calculateInstalledRank h).2 = (getAppliedMigrations h).2 := by
  rw [calculateInstalledRank_eq]
  cases (getAppliedMigrations h).1.getLast? <;> rfl

/-- The rank computed by `calculateInstalledRank` exceeds the rank of every
cached and every table row. -/
theorem calculateInstalledRank_gt (h : HistoryState) :
    (∀ row ∈ h.cache, row.installedRank < (calculateInstalledRank h).1) ∧
    (∀ row ∈ h.table, row.installedRank < (calculateInstalledRank h).1) := by
  cases hl : (getAppliedMigrations h).1.getLast? with
  | none =>
    have hspec : (calculateInstalledRank h).1 = 1 := calculateInstalledRank_none h hl
    have hempty : (getAppliedMigrations h).1 = [] :=
      List.getLast?_eq_none_iff.mp hl
    refine ⟨?_, ?_⟩
    · intro row hrow
      have hmem : row ∈ (getAppliedMigrations h).1 :=
        (mem_getApplied_iff h row).mpr (Or.inl hrow)
      rw [hempty] at hmem
      simp at hmem
    · intro row hrow
      by_cases hgt : maxCachedRank h.cache < row.installedRank
      · have hmem : row ∈ (getAppliedMigrations h).1 :=
          (mem_getApplied_iff h row).mpr (Or.inr ⟨hrow, hgt⟩)
        rw [hempty] at hmem
        simp at hmem
      · -- the cache is empty here, so maxCachedRank is -1
        have hcache : ∀ c ∈ h.cache, False := by
          intro c hc
          have hmem : c ∈ (getAppliedMigrations h).1 :=
            (mem_getApplied_iff h c).mpr (Or.inl hc)
          rw [hempty] at hmem
          simp at hmem
        have hmc : maxCachedRank h.cache = -1 := by
          unfold maxCachedRank
          cases hgl : (sortCache h.cache).getLast? with
          | none => rfl
          | some b =>
            exact absurd ((sortCache_mem _ b).mp (mem_of_getLastQ _ b hgl))
              (fun hb => hcache b hb)
        rw [hmc] at hgt
        rw [hspec]
        omega
  | some b =>
    have hspec : (calculateInstalledRank h).1 = b.installedRank + 1 :=
      calculateInstalledRank_some h b hl
    have hble := le_getLast_of_sorted _ b (getApplied_pairwise h) hl
    refine ⟨?_, ?_⟩
    · intro row hrow
      rw [hspec]
      have hmem : row ∈ (getAppliedMigrations h).1 :=
        (mem_getApplied_iff h row).mpr (Or.inl hrow)
      have := hble row hmem
      omega
    · intro row hrow
      rw [hspec]
      by_cases hgt : maxCachedRank h.cache < row.installedRank
      · have hmem : row ∈ (getAppliedMigrations h).1 :=
          (mem_getApplied_iff h row).mpr (Or.inr ⟨hrow, hgt⟩)
        have := hble row hmem
        omega
      · have hmc : row.installedRank ≤ maxCachedRank h.cache := by omega
        -- the cached maximum is witnessed by a cached row, itself ≤ b
        unfold maxCachedRank at hmc
        cases hgl : (sortCache h.cache).getLast? with
        | none =>
          rw [hgl] at hmc
          have hmc' : row.installedRank ≤ -1 := hmc
          -- empty cache: b is in the applied list, which here consists
          -- exactly of table rows above the cached maximum -1
          have hbmem : b ∈ (getAppliedMigrations h).1 := mem_of_getLastQ _ b hl
          rcases (mem_getApplied_iff h b).mp hbmem with hc | ⟨_, hbgt⟩
          · have hce : (sortCache h.cache) = [] := List.getLast?_eq_none_iff.mp hgl
            have hbc : b ∈ sortCache h.cache := (sortCache_mem _ b).mpr hc
            rw [hce] at hbc
            simp at hbc
          · unfold maxCachedRank at hbgt
            rw [hgl] at hbgt
            have hbgt' : (-1 : Int) < b.installedRank := hbgt
            omega
        | some c =>
          rw [hgl] at hmc
          have hmc' : row.installedRank ≤ c.installedRank := hmc
          have hcmem : c ∈ h.cache := (sortCache_mem _ c).mp (mem_of_getLastQ _ c hgl)
          have hmem : c ∈ (getAppliedMigrations h).1 :=
            (mem_getApplied_iff h c).mpr (Or.inl hcmem)
          have := hble c hmem
          omega

/-- Successful `addAppliedMigration` on a locked store: the exact result
shape, and bounds showing the assigned rank exceeds every pre-existing cached
row and every surviving table row. -/
theorem addAppliedMigration_ok (h : HistoryState) (info : MigrationInfo)
    (s : Bool) (hlock : h.locked = true) :
    ∃ h1 r, addAppliedMigration h info s = .ok (h1, r) ∧
      h1.locked = true ∧
      h1.table = h.table.filter (fun row => ¬(row.version = info.version)) ++
        [⟨r, info.version, info.description, info.checksum, s⟩] ∧
      (∀ row ∈ h.cache, row.installedRank < r) ∧
      (∀ row ∈ h1.cache, row.installedRank < r) ∧
      (∀ row ∈ h1.table, row.installedRank ≤ r) ∧
      (∃ row ∈ h1.table, row.installedRank = r) := by
  have hf : HistoryState :=
    { h with table := h.table.filter (fun r => ¬(r.version = info.version)) }
  have hgt := calculateInstalledRank_gt
    { h with table := h.table.filter (fun r => ¬(r.version = info.version)) }
  set r : Int := (calculateInstalledRank
    { h with table := h.table.filter (fun r => ¬(r.version = info.version)) }).1
    with hr
  set h2 : HistoryState := (calculateInstalledRank
    { h with table := h.table.filter (fun r => ¬(r.version = info.version)) }).2
    with hh2
  have hcond : ¬(h.locked = false) := by
    rw [hlock]
    simp
  have heq : addAppliedMigration h info s =
      .ok ({ h2 with table := h2.table ++
        [⟨r, info.version, info.description, info.checksum, s⟩] }, r) := by
    simp only [addAppliedMigration]
    rw [if_neg hcond]
  have h2snd : h2 = (getAppliedMigrations
      { h with table := h.table.filter (fun r => ¬(r.version = info.version)) }).2 := by
    rw [hh2, calculateInstalledRank_snd]
  have h2table : h2.table =
      h.table.filter (fun r => ¬(r.version = info.version)) := by
    rw [h2snd]
    rfl
  have h2cache : ∀ row ∈ h2.cache, row.installedRank < r := by
    intro row hrow
    have hrow' : row ∈ (getAppliedMigrations
        { h with table := h.table.filter (fun r => ¬(r.version = info.version)) }).1 := by
      rw [h2snd] at hrow
      exact hrow
    rcases (mem_getApplied_iff _ row).mp hrow' with hc | ⟨ht, _⟩
    · exact hgt.1 row hc
    · exact hgt.2 row ht
  have h2locked : h2.locked = true := by
    rw [h2snd]
    exact hlock
  refine ⟨_, r, heq, h2locked, ?_, ?_, ?_, ?_, ?_⟩
  · show h2.table ++ _ = _
    rw [h2table]
  · intro row hrow
    exact hgt.1 row hrow
  · intro row hrow
    exact h2cache row hrow
  · intro row hrow
    rcases List.mem_append.mp hrow with hl | hr1
    · rw [h2table] at hl
      exact le_of_lt (hgt.2 row hl)
    · have : row = ⟨r, info.version, info.description, info.checksum, s⟩ := by
        simpa using hr1
      rw [this]
  · refine ⟨⟨r, info.version, info.description, info.checksum, s⟩, ?_, rfl⟩
    exact List.mem_append_right _ (by simp)

/-- One orchestrator-style append strictly increases the last assigned rank
and re-establishes the invariant. -/
theorem passAppend_step (h : HistoryState) (r : Int) (op : MigrationInfo × Bool)
    (hP : PState h r) :
    ∃ h3 r2, passAppend h op = (h3, some r2) ∧ r < r2 ∧ PState h3 r2 := by
  obtain ⟨hlock, hr1, ⟨rw0, hrw0mem, hrw0rank⟩, htab, hcache⟩ := hP
  have h2lock : (getAppliedMigrations h).2.locked = true := hlock
  have h2cache_mem : rw0 ∈ (getAppliedMigrations h).2.cache := by
    have hmc : maxCachedRank h.cache < rw0.installedRank := by
      rw [hrw0rank]
      exact maxCachedRank_lt h.cache r hr1 hcache
    exact (mem_getApplied_iff h rw0).mpr (Or.inr ⟨hrw0mem, hmc⟩)
  obtain ⟨h3, r2, heq, h3lock, h3table, hclt, hclt3, htle3, hex3⟩ :=
    addAppliedMigration_ok (getAppliedMigrations h).2 op.1 op.2 h2lock
  have hrlt : r < r2 := by
    have := hclt rw0 h2cache_mem
    omega
  refine ⟨h3, r2, ?_, hrlt, h3lock, by omega, hex3, htle3, hclt3⟩
  simp only [passAppend]
  rw [heq]

/-- The first append on an empty locked ledger assigns rank 1 and establishes
the invariant. -/
theorem passAppend_base (op : MigrationInfo × Bool) :
    ∃ h1, passAppend lockedEmpty op = (h1, some 1) ∧ PState h1 1 := by
  refine ⟨⟨[⟨1, op.1.version, op.1.description, op.1.checksum, op.2⟩], [], true⟩,
    rfl, ?_⟩
  refine ⟨rfl, le_refl 1,
    ⟨⟨1, op.1.version, op.1.description, op.1.checksum, op.2⟩, by simp, rfl⟩, ?_, ?_⟩
  · intro row hrow
    have : row = ⟨1, op.1.version, op.1.description, op.1.checksum, op.2⟩ := by
      simpa using hrow
    rw [this]
  · intro row hrow
    simp at hrow

theorem runRanksAux_chain (ops : List (MigrationInfo × Bool)) :
    ∀ (h : HistoryState) (r : Int), PState h r →
      List.Chain (· < ·) r (runRanksAux h ops) := by
  induction ops with
  | nil =>
    intro h r _
    exact List.Chain.nil
  | cons op rest ih =>
    intro h r hP
    obtain ⟨h3, r2, heq, hlt, hP3⟩ := passAppend_step h r op hP
    simp only [runRanksAux]
    rw [heq]
    exact List.Chain.cons hlt (ih h3 r2 hP3)

/-- C2 counterexample: two immediate appends of the same version on an empty
ledger both get rank 1 — a delete-then-reinsert with no intervening reload of
the applied rows reuses the deleted row's rank. -/
theorem c2_counterexample :
    (addAppliedMigration lockedEmpty ⟨.sem 1 0 0, .pending, "a", 0, "c"⟩ false =
      .ok (⟨[⟨1, .sem 1 0 0, "a", "c", false⟩], [], true⟩, 1)) ∧
    (addAppliedMigration ⟨[⟨1, .sem 1 0 0, "a", "c", false⟩], [], true⟩
        ⟨.sem 1 0 0, .pending, "a", 0, "c"⟩ false =
      .ok (⟨[⟨1, .sem 1 0 0, "a", "c", false⟩], [], true⟩, 1)) := by
  constructor <;> decide

/-- C2 (amended): the rank assigned by an append is 1 when `loadApplied`
returns no rows and otherwise the maximum returned `installedRank` plus one;
across any sequence of appends in which the applied rows are re-loaded before
each append — as every orchestrator pass does — the assigned ranks are
strictly increasing and never reused.  (Without the intervening reload, an
immediate delete-then-reinsert of the same version can reuse the deleted
rank, see the counterexample.) -/
theorem c2_rank_assignment :
    (∀ h : HistoryState,
      ((getAppliedMigrations h).1 = [] → (calculateInstalledRank h).1 = 1) ∧
      (∀ b ∈ (getAppliedMigrations h).1,
        (∀ q ∈ (getAppliedMigrations h).1, q.installedRank ≤ b.installedRank) →
        (calculateInstalledRank h).1 = b.installedRank + 1)) ∧
    (∀ ops : List (MigrationInfo × Bool), (runRanks ops).Pairwise (· < ·)) := by
  constructor
  · intro h
    constructor
    · intro hempty
      exact calculateInstalledRank_none h (by rw [hempty]; rfl)
    · intro b hb hmax
      cases hl : (getAppliedMigrations h).1.getLast? with
      | none =>
        rw [List.getLast?_eq_none_iff.mp hl] at hb
        simp at hb
      | some b1 =>
        have h1 : b1.installedRank ≤ b.installedRank :=
          hmax b1 (mem_of_getLastQ _ b1 hl)
        have h2 : b.installedRank ≤ b1.installedRank :=
          le_getLast_of_sorted _ b1 (getApplied_pairwise h) hl b hb
        rw [calculateInstalledRank_some h b1 hl]
        omega
  · intro ops
    cases ops with
    | nil => exact List.Pairwise.nil
    | cons op rest =>
      obtain ⟨h1, heq, hP⟩ := passAppend_base op
      have hchain := runRanksAux_chain rest h1 1 hP
      have : runRanks (op :: rest) = 1 :: runRanksAux h1 rest := by
        simp only [runRanks, runRanksAux]
        rw [heq]
      rw [this]
      exact List.Chain.pairwise hchain

/-- Witness for `c2_rank_assignment`: the empty ledger assigns rank 1. -/
theorem c2_rank_assignment_witness :
    (calculateInstalledRank lockedEmpty).1 = 1 :=
  (c2_rank_assignment.1 lockedEmpty).1 (by decide)

/-- Witness for `c8_repeatable_untouched`: a Success-state repeatable is left
in state Success (hence not pending) by a reconciliation pass. -/
theorem c8_repeatable_untouched_witness :
    ((reconcileLoop (reconLA ⟨[], [], true⟩) (reconAB ⟨[], [], true⟩)
        [⟨true, ⟨.R, .success, "r", 0, "cr"⟩, [none]⟩] []).2.1)[0]? =
      some ⟨true, ⟨.R, .success, "r", 0, "cr"⟩, [none]⟩ :=
  c8_repeatable_untouched ⟨[], [], true⟩
    [⟨true, ⟨.R, .success, "r", 0, "cr"⟩, [none]⟩] [] 0
    ⟨true, ⟨.R, .success, "r", 0, "cr"⟩, [none]⟩ (by decide) (by decide)

/-! ## Reconciliation error lemmas (claims C3 and C1) -/

/-- A head with no applied row, a non-repeatable version and a version at most
`lastAppliedVersion` makes `reconcileLoop` fail with the out-of-order error. -/
theorem reconcileLoop_bad_head (la : Option MVersion) (ab : AList)
    (x : OMigration) (rest : List OMigration) (nr : AList)
    (hR : ¬(x.Info.version = .R)) (hlook : lookupRow x.Info.version ab = none)
    (hle : compareVersionOpt x.Info.version la ≤ 0) :
    (reconcileLoop la ab (x :: rest) nr).2.2 =
      some (.outOfOrder la x.Info.version) := by
  simp only [reconcileLoop, hlook]
  rw [if_pos ⟨hR, hle⟩]

/-- Error propagation through one step: either the head itself errors, or the
whole error equals the error of the processed tail. -/
theorem reconcileLoop_cons_err (la : Option MVersion) (ab : AList)
    (x : OMigration) (rest : List OMigration) (nr : AList) :
    (∃ e, (reconcileLoop la ab (x :: rest) nr).2.2 = some e) ∨
      (reconcileLoop la ab (x :: rest) nr).2.2 =
        (reconcileLoop la ab rest (upsertA x.Info.version none nr)).2.2 := by
  rcases hrec : reconcileLoop la ab rest (upsertA x.Info.version none nr) with
    ⟨nr2, rest1, e⟩
  cases hl : lookupRow x.Info.version ab with
  | none =>
    by_cases hc : ¬(x.Info.version = .R) ∧ compareVersionOpt x.Info.version la ≤ 0
    · refine Or.inl ⟨.outOfOrder la x.Info.version, ?_⟩
      simp only [reconcileLoop, hl]
      rw [if_pos hc]
    · refine Or.inr ?_
      simp only [reconcileLoop, hl, hrec]
      rw [if_neg hc]
  | some row =>
    by_cases hs : row.success = true
    · by_cases hcs : row.checksum = (if x.Info.version = .R then x.Info
          else { x.Info with state := MigrationState.pending }).checksum
      · by_cases hds : row.description = (if x.Info.version = .R then x.Info
            else { x.Info with state := MigrationState.pending }).description
        · refine Or.inr ?_
          simp only [reconcileLoop, hl, hrec]
          rw [if_pos hs, if_neg (not_not_intro hcs), if_neg (not_not_intro hds)]
        · refine Or.inl ⟨.descriptionMismatch x.Info.version row.description
            ((if x.Info.version = .R then x.Info
              else { x.Info with state := MigrationState.pending }).description), ?_⟩
          simp only [reconcileLoop, hl]
          rw [if_pos hs, if_neg (not_not_intro hcs), if_pos hds]
      · refine Or.inl ⟨.checksumMismatch x.Info.version row.checksum
          ((if x.Info.version = .R then x.Info
            else { x.Info with state := MigrationState.pending }).checksum), ?_⟩
        simp only [reconcileLoop, hl]
        rw [if_pos hs, if_pos hcs]
    · refine Or.inr ?_
      simp only [reconcileLoop, hl, hrec]
      rw [if_neg hs]

/-- A head passing its checks (`defClean`) never produces the error: it is
the tail's error that is returned. -/
theorem reconcileLoop_clean_step (la : Option MVersion) (ab : AList)
    (x : OMigration) (rest : List OMigration) (nr : AList)
    (hclean : defClean la ab x = true) :
    (reconcileLoop la ab (x :: rest) nr).2.2 =
      (reconcileLoop la ab rest (upsertA x.Info.version none nr)).2.2 := by
  rcases hrec : reconcileLoop la ab rest (upsertA x.Info.version none nr) with
    ⟨nr2, rest1, e⟩
  unfold defClean at hclean
  cases hl : lookupRow x.Info.version ab with
  | none =>
    rw [hl] at hclean
    have hor : x.Info.version = .R ∨ 0 < compareVersionOpt x.Info.version la := by
      simpa using hclean
    have hc : ¬(¬(x.Info.version = .R) ∧ compareVersionOpt x.Info.version la ≤ 0) := by
      rcases hor with h1 | h1
      · intro hcc
        exact hcc.1 h1
      · intro hcc
        omega
    simp only [reconcileLoop, hl, hrec]
    rw [if_neg hc]
  | some row =>
    rw [hl] at hclean
    have hor : ¬(row.success = true) ∨
        (row.checksum = x.Info.checksum ∧ row.description = x.Info.description) := by
      simpa using hclean
    have hinfo1c : (if x.Info.version = .R then x.Info
        else { x.Info with state := MigrationState.pending }).checksum =
        x.Info.checksum := by
      split <;> rfl
    have hinfo1d : (if x.Info.version = .R then x.Info
        else { x.Info with state := MigrationState.pending }).description =
        x.Info.description := by
      split <;> rfl
    rcases hor with h1 | ⟨hcs, hds⟩
    · have hs : row.success = false := by
        cases hsv : row.success
        · rfl
        · exact absurd hsv h1
      simp only [reconcileLoop, hl, hrec]
      rw [if_neg (by rw [hs]; simp)]
    · simp only [reconcileLoop, hl, hrec]
      by_cases hs : row.success = true
      · rw [if_pos hs, if_neg (not_not_intro (by rw [hinfo1c]; exact hcs)),
          if_neg (not_not_intro (by rw [hinfo1d]; exact hds))]
      · rw [if_neg hs]

/-- If some definition in the list is out of order (no applied row,
non-repeatable, version at most `lastAppliedVersion`), `reconcileLoop`
returns an error. -/
theorem reconcileLoop_err_of_bad (la : Option MVersion) (ab : AList) :
    ∀ (ms : List OMigration) (nr : AList) (j : Nat) (m : OMigration),
      ms[j]? = some m → ¬(m.Info.version = .R) →
      lookupRow m.Info.version ab = none →
      compareVersionOpt m.Info.version la ≤ 0 →
      ∃ e, (reconcileLoop la ab ms nr).2.2 = some e := by
  intro ms
  induction ms with
  | nil =>
    intro nr j m hj
    simp at hj
  | cons x rest ih =>
    intro nr j m hj hR hlook hle
    cases j with
    | zero =>
      have hx : x = m := by simpa using hj
      subst hx
      exact ⟨_, reconcileLoop_bad_head la ab x rest nr hR hlook hle⟩
    | succ j1 =>
      simp only [List.getElem?_cons_succ] at hj
      rcases reconcileLoop_cons_err la ab x rest nr with he | he
      · exact he
      · rw [he]
        exact ih _ j1 m hj hR hlook hle

/-- If additionally every earlier definition passes its checks, the reported
error is exactly the out-of-order error for the offending definition. -/
theorem reconcileLoop_outoforder (la : Option MVersion) (ab : AList) :
    ∀ (ms : List OMigration) (nr : AList) (j : Nat) (m : OMigration),
      ms[j]? = some m →
      (∀ (k : Nat) (mk1 : OMigration), k < j → ms[k]? = some mk1 →
        defClean la ab mk1 = true) →
      ¬(m.Info.version = .R) → lookupRow m.Info.version ab = none →
      compareVersionOpt m.Info.version la ≤ 0 →
      (reconcileLoop la ab ms nr).2.2 = some (.outOfOrder la m.Info.version) := by
  intro ms
  induction ms with
  | nil =>
    intro nr j m hj
    simp at hj
  | cons x rest ih =>
    intro nr j m hj hclean hR hlook hle
    cases j with
    | zero =>
      have hx : x = m := by simpa using hj
      subst hx
      exact reconcileLoop_bad_head la ab x rest nr hR hlook hle
    | succ j1 =>
      simp only [List.getElem?_cons_succ] at hj
      have hx : defClean la ab x = true :=
        hclean 0 x (Nat.succ_pos j1) (by simp)
      rw [reconcileLoop_clean_step la ab x rest nr hx]
      refine ih _ j1 m hj ?_ hR hlook hle
      intro k mk1 hk hmk
      exact hclean (k + 1) mk1 (Nat.succ_lt_succ hk) (by simpa using hmk)

/-- When reconciliation errors, `migrateNext` returns count 0 with that error,
the post-load history state, the partially updated migration list, and no
apply attempt. -/
theorem migrateNext_of_reconcile_err (h : HistoryState) (ms : List OMigration)
    (e : MErr)
    (hrec : (reconcileLoop (reconLA h) (reconAB h) ms (reconNR0 h)).2.2 = some e) :
    migrateNext h ms = ⟨0, (getAppliedMigrations h).2,
      (reconcileLoop (reconLA h) (reconAB h) ms (reconNR0 h)).2.1, some e, []⟩ := by
  rcases hga : getAppliedMigrations h with ⟨applied, h1⟩
  rcases hbm : buildAppliedMaps applied with ⟨nr0, ab, la⟩
  have hla : reconLA h = la := by
    simp only [reconLA, hga, hbm]
  have hab : reconAB h = ab := by
    simp only [reconAB, hga, hbm]
  have hnr0 : reconNR0 h = nr0 := by
    simp only [reconNR0, hga, hbm]
  rw [hla, hab, hnr0] at hrec ⊢
  rcases hr2 : reconcileLoop la ab ms nr0 with ⟨nr1, migs1, e1⟩
  rw [hr2] at hrec
  simp only at hrec
  subst hrec
  simp only [migrateNext, hga, hbm, hr2]

/-- C3 counterexample: the out-of-order condition holds for the local
definition `1.5.0` (no applied row, version at most the last applied `2.0.0`),
yet reconciliation reports the checksum mismatch of the earlier definition
`1.0.0` — not the out-of-order error — because the earlier drift is detected
first in sort order. -/
theorem c3_counterexample :
    (migrateNext
        ⟨[⟨1, .sem 1 0 0, "a", "X", true⟩, ⟨2, .sem 2 0 0, "b", "c2", true⟩],
         [], false⟩
        [⟨false, ⟨.sem 1 0 0, .pending, "a", 0, "Y"⟩, []⟩,
         ⟨false, ⟨.sem 1 5 0, .pending, "c", 0, "w"⟩, []⟩]).err =
      some (.checksumMismatch (.sem 1 0 0) "X" "Y") ∧
    ([⟨false, ⟨.sem 1 0 0, .pending, "a", 0, "Y"⟩, []⟩,
      ⟨false, ⟨.sem 1 5 0, .pending, "c", 0, "w"⟩, []⟩] :
        List OMigration)[1]? =
      some ⟨false, ⟨.sem 1 5 0, .pending, "c", 0, "w"⟩, []⟩ ∧
    lookupRow (.sem 1 5 0)
      (reconAB ⟨[⟨1, .sem 1 0 0, "a", "X", true⟩, ⟨2, .sem 2 0 0, "b", "c2", true⟩],
        [], false⟩) = none ∧
    compareVersionOpt (.sem 1 5 0)
      (reconLA ⟨[⟨1, .sem 1 0 0, "a", "X", true⟩, ⟨2, .sem 2 0 0, "b", "c2", true⟩],
        [], false⟩) ≤ 0 := by
  refine ⟨?_, by decide, by decide, by decide⟩
  decide

/-- C3 (amended): if a local non-repeatable definition has no applied row and
its version is at most `lastAppliedVersion`, reconciliation fails and the
pass applies nothing (count 0, no attempt, table unchanged); the reported
error is the out-of-order error for that definition provided every earlier
definition in sort order passes its own reconciliation checks (otherwise the
earlier drift error is reported instead, see the counterexample). -/
theorem c3_out_of_order (h : HistoryState) (ms : List OMigration) (j : Nat)
    (m : OMigration)
    (hj : ms[j]? = some m) (hR : ¬(m.Info.version = .R))
    (hlook : lookupRow m.Info.version (reconAB h) = none)
    (hle : compareVersionOpt m.Info.version (reconLA h) ≤ 0) :
    (∃ e, (migrateNext h ms).err = some e) ∧
    (migrateNext h ms).count = 0 ∧
    (migrateNext h ms).attempts = [] ∧
    (migrateNext h ms).hist.table = h.table ∧
    ((∀ (k : Nat) (mk1 : OMigration), k < j → ms[k]? = some mk1 →
        defClean (reconLA h) (reconAB h) mk1 = true) →
      (migrateNext h ms).err = some (.outOfOrder (reconLA h) m.Info.version)) := by
  obtain ⟨e, he⟩ := reconcileLoop_err_of_bad (reconLA h) (reconAB h) ms
    (reconNR0 h) j m hj hR hlook hle
  have hmn := migrateNext_of_reconcile_err h ms e he
  refine ⟨⟨e, by rw [hmn]⟩, by rw [hmn], by rw [hmn], by rw [hmn]; rfl, ?_⟩
  intro hclean
  have he2 := reconcileLoop_outoforder (reconLA h) (reconAB h) ms
    (reconNR0 h) j m hj hclean hR hlook hle
  have hmn2 := migrateNext_of_reconcile_err h ms _ he2
  rw [hmn2]

/-- Witness for `c3_out_of_order`: ledger at version 2.0.0, a single local
definition 1.5.0 never applied — the pass fails with the out-of-order error
and applies nothing. -/
theorem c3_out_of_order_witness :
    (migrateNext ⟨[⟨1, .sem 2 0 0, "b", "c2", true⟩], [], false⟩
        [⟨false, ⟨.sem 1 5 0, .pending, "c", 0, "w"⟩, []⟩]).count = 0 ∧
    (migrateNext ⟨[⟨1, .sem 2 0 0, "b", "c2", true⟩], [], false⟩
        [⟨false, ⟨.sem 1 5 0, .pending, "c", 0, "w"⟩, []⟩]).err =
      some (.outOfOrder
        (reconLA ⟨[⟨1, .sem 2 0 0, "b", "c2", true⟩], [], false⟩) (.sem 1 5 0)) := by
  have h := c3_out_of_order ⟨[⟨1, .sem 2 0 0, "b", "c2", true⟩], [], false⟩
    [⟨false, ⟨.sem 1 5 0, .pending, "c", 0, "w"⟩, []⟩] 0
    ⟨false, ⟨.sem 1 5 0, .pending, "c", 0, "w"⟩, []⟩
    (by decide) (by decide) (by decide) (by decide)
  refine ⟨h.2.1, ?_⟩
  exact h.2.2.2.2 (fun k mk1 hk => absurd hk (Nat.not_lt_zero k))

/-- When reconciliation succeeds, the orphan check passes, the first pending
migration is selected and running its commands fails, `migrateNext` records a
failed ledger row for that version (after deleting any previous row for it),
attempts nothing else and returns the apply error. -/
theorem migrateNext_apply_fail (H : HistoryState) (ms : List OMigration)
    (i : Nat) (m : OMigration) (cause : String)
    (hlock : H.locked = true)
    (hre : (reconcileLoop (reconLA H) (reconAB H) ms (reconNR0 H)).2.2 = none)
    (hfu : findUnresolved
      (reconcileLoop (reconLA H) (reconAB H) ms (reconNR0 H)).1 = none)
    (hidx : ((reconcileLoop (reconLA H) (reconAB H) ms (reconNR0 H)).2.1).findIdx?
        (fun mg => decide (mg.Info.state = .pending)) = some i)
    (hm : ((reconcileLoop (reconLA H) (reconAB H) ms (reconNR0 H)).2.1)[i]? = some m)
    (hfail : runCommands m.commands = some cause) :
    (migrateNext H ms).err = some (.applyFailed cause) ∧
    (migrateNext H ms).count = 0 ∧
    (migrateNext H ms).attempts = [m.Info.version] ∧
    ∃ rk, (migrateNext H ms).hist.table =
      H.table.filter (fun row => ¬(row.version = m.Info.version)) ++
        [⟨rk, m.Info.version, m.Info.description, m.Info.checksum, false⟩] := by
  rcases hga : getAppliedMigrations H with ⟨applied, H1⟩
  have hH1 : (getAppliedMigrations H).2 = H1 := by rw [hga]
  have hH1locked : H1.locked = true := by
    rw [← hH1]
    exact hlock
  have hH1table : H1.table = H.table := by
    rw [← hH1]
    rfl
  rcases hbm : buildAppliedMaps applied with ⟨nr0, ab, la⟩
  have hla : reconLA H = la := by simp only [reconLA, hga, hbm]
  have hab : reconAB H = ab := by simp only [reconAB, hga, hbm]
  have hnr0 : reconNR0 H = nr0 := by simp only [reconNR0, hga, hbm]
  rw [hla, hab, hnr0] at hre hfu hidx hm
  rcases hr2 : reconcileLoop la ab ms nr0 with ⟨nr1, migs1, e1⟩
  rw [hr2] at hre hfu hidx hm
  simp only at hre hfu hidx hm
  subst hre
  obtain ⟨h3, rk, haddEq, _, h3table, _, _, _, _⟩ :=
    addAppliedMigration_ok H1 m.Info false hH1locked
  have hsingle : migrateSingle H1 m = (H1, m, some (.applyFailed cause)) := by
    simp only [migrateSingle, hfail]
  have hrecord : recordFailure H1 m =
      (h3, { m with Info := { m.Info with installedRank := rk } }) := by
    simp only [recordFailure, haddEq]
  have hmn : migrateNext H ms =
      ⟨0, h3, migs1.set i { m with Info := { m.Info with installedRank := rk } },
        some (.applyFailed cause), [m.Info.version]⟩ := by
    simp only [migrateNext, hga, hbm, hr2, hfu, hidx, hm, hsingle, hrecord]
  rw [hmn]
  refine ⟨rfl, rfl, rfl, rk, ?_⟩
  show h3.table = _
  rw [h3table, hH1table]

/-- C1: when applying the selected pending migration fails (some command
errors), the run records a `success=false` ledger row for that migration's
version — after deleting any previous row for that version — and the
orchestrator stops immediately, returning the apply error: the loop makes no
further pass and no other migration's apply is attempted (the attempt trace
of the whole remaining run is exactly that one version).  The hypotheses
state that, on the sorted migration list, reconciliation succeeds and
selects the failing migration as first pending. -/
theorem c1_failed_apply_stops (h : HistoryState) (ms : List OMigration)
    (fuel : Nat) (i : Nat) (m : OMigration) (cause : String)
    (hlock : h.locked = false)
    (hre : (reconcileLoop (reconLA { h with locked := true })
        (reconAB { h with locked := true }) (sortMigrations ms)
        (reconNR0 { h with locked := true })).2.2 = none)
    (hfu : findUnresolved (reconcileLoop (reconLA { h with locked := true })
        (reconAB { h with locked := true }) (sortMigrations ms)
        (reconNR0 { h with locked := true })).1 = none)
    (hidx : ((reconcileLoop (reconLA { h with locked := true })
        (reconAB { h with locked := true }) (sortMigrations ms)
        (reconNR0 { h with locked := true })).2.1).findIdx?
        (fun mg => decide (mg.Info.state = .pending)) = some i)
    (hm : ((reconcileLoop (reconLA { h with locked := true })
        (reconAB { h with locked := true }) (sortMigrations ms)
        (reconNR0 { h with locked := true })).2.1)[i]? = some m)
    (hfail : runCommands m.commands = some cause) :
    (MigrateModel (fuel + 1) h ms).err = some (.applyFailed cause) ∧
    (MigrateModel (fuel + 1) h ms).count = 0 ∧
    (MigrateModel (fuel + 1) h ms).attempts = [m.Info.version] ∧
    ∃ rk, (MigrateModel (fuel + 1) h ms).hist.table.filter
        (fun row => decide (row.version = m.Info.version)) =
      [⟨rk, m.Info.version, m.Info.description, m.Info.checksum, false⟩] := by
  obtain ⟨herr, hcnt, hatts, rk, htable⟩ :=
    migrateNext_apply_fail { h with locked := true } (sortMigrations ms) i m cause
      rfl hre hfu hidx hm hfail
  rcases hmn : migrateNext { h with locked := true } (sortMigrations ms) with
    ⟨cnt, hist1, migs2, err1, atts⟩
  rw [hmn] at herr hcnt hatts htable
  simp only at herr hcnt hatts htable
  subst herr
  subst hcnt
  subst hatts
  have hloop : MigrateModel (fuel + 1) h ms =
      ⟨0, { hist1 with locked := false }, migs2, some (.applyFailed cause),
        [] ++ [m.Info.version]⟩ := by
    simp only [MigrateModel, migrateLoop, lockPass, hlock, hmn,
      Bool.false_eq_true, reduceIte]
  rw [hloop]
  refine ⟨rfl, rfl, by simp, rk, ?_⟩
  show hist1.table.filter _ = _
  rw [htable, List.filter_append, List.filter_filter]
  have hnil : ({ h with locked := true } : HistoryState).table.filter
      (fun a => decide (a.version = m.Info.version) &&
        decide (¬(a.version = m.Info.version))) = [] := by
    refine List.filter_eq_nil_iff.mpr ?_
    intro a _
    simp
  rw [hnil]
  simp

/-- Witness for `c1_failed_apply_stops`: one migration whose single command
fails; the run stops with the apply error, attempts only that version, and
leaves one `success=false` row for it. -/
theorem c1_failed_apply_stops_witness :
    (MigrateModel 1 ⟨[], [], false⟩
        [⟨false, ⟨.sem 1 0 0, .pending, "a", 0, "c1"⟩, [some "boom"]⟩]).err =
      some (.applyFailed "boom") ∧
    (MigrateModel 1 ⟨[], [], false⟩
        [⟨false, ⟨.sem 1 0 0, .pending, "a", 0, "c1"⟩, [some "boom"]⟩]).attempts =
      [.sem 1 0 0] := by
  have h := c1_failed_apply_stops ⟨[], [], false⟩
    [⟨false, ⟨.sem 1 0 0, .pending, "a", 0, "c1"⟩, [some "boom"]⟩] 0 0
    ⟨false, ⟨.sem 1 0 0, .pending, "a", 0, "c1"⟩, [some "boom"]⟩ "boom"
    rfl (by decide) (by decide) (by decide) (by decide) (by decide)
  exact ⟨h.1, h.2.2.1⟩

end Pg
